import Mathlib

/-!
Shallow embedding of the `casein` declarative UI library (`src/lib.rs`,
`src/input.rs`) and proofs about its reconciliation engine, input routing,
layout and event channel.

Modelling conventions:
* `f32` coordinates and sizes are modelled as `ℚ`; every computation the
  source performs on them here is addition, subtraction, `max` and order
  comparison, which the claims only exercise at exactly representable
  values.
* `f32::INFINITY`, which the source uses only as an "unbounded" layout
  constraint, is modelled by a dedicated `Dim` variant.
* The external collaborators (font measurement/layout, GPU renderer,
  windowing) are opaque per the design: fonts and vector paths are opaque
  handles, and text measurement/layout is an explicit environment `Env`
  of pure functions, matching the design's "treated as a pure function"
  contract.
* Rust closures stored on nodes are modelled as first-order data: opaque
  handler identifiers, except for the two closure shapes the library
  itself installs (`Button`'s mouse-up closure). Invoking a handler emits
  an `Eff` effect into a trace instead of running a side effect.
* `Box<dyn Any>` typed state is modelled as a closed sum `StateVal` of the
  state types occurring in the repository plus a `TypeId`-like tag.
* The per-call-site `id!()` static addresses are modelled as distinct
  natural-number tags, one per call site.
-/

namespace Casein

/-- 2-d vector (`gouache::Vec2`), with `ℚ` components standing for `f32`. -/
structure Vec2 where
  x : ℚ
  y : ℚ
deriving DecidableEq, Repr

instance : Add Vec2 := ⟨fun a b => ⟨a.x + b.x, a.y + b.y⟩⟩

@[simp] theorem Vec2.add_x (a b : Vec2) : (a + b).x = a.x + b.x := rfl

@[simp] theorem Vec2.add_y (a b : Vec2) : (a + b).y = a.y + b.y := rfl

/-- RGBA color (`gouache::Color`), components as exact rationals. -/
structure Color where
  r : ℚ
  g : ℚ
  b : ℚ
  a : ℚ
deriving DecidableEq, Repr

/-- `Color::rgba`. -/
def Color.rgba (r g b a : ℚ) : Color := ⟨r, g, b, a⟩

/-- `input::MouseButton`. -/
inductive MouseButton where
  | left
  | middle
  | right
deriving DecidableEq, Repr

/-- `input::Key`: the key identity is a closed enum of 120 keyboard keys
which the core routing never inspects; it is abstracted to an opaque
index. -/
def Key : Type := Nat

/-- `input::Modifiers`. -/
structure Modifiers where
  shift : Bool
  ctrl : Bool
  alt : Bool
  meta : Bool
deriving DecidableEq, Repr

/-- `input::Modifiers::default`. -/
def Modifiers.default : Modifiers := ⟨false, false, false, false⟩

/-- `input::InputState`: pointer coordinates and modifier flags. -/
structure InputState where
  mouse_x : ℚ
  mouse_y : ℚ
  modifiers : Modifiers
deriving DecidableEq, Repr

/-- `input::Input`: the closed set of input event kinds. -/
inductive Input where
  | mouseMove
  | mouseDown (button : MouseButton)
  | mouseUp (button : MouseButton)
  | scroll (dx dy : ℚ)
  | keyDown (key : Key)
  | keyUp (key : Key)
  | char (c : Char)

/-- Glyphs produced by the opaque font layout service (`gouache::Glyph`). -/
def Glyph : Type := Nat

/-- `Shape`: what a node draws. Fonts and vector paths are opaque handles
(they belong to the excluded rendering/font collaborators). -/
inductive Shape where
  | empty
  | rect (position : Vec2) (dimensions : Vec2) (color : Color)
  | text (position : Vec2) (font : Nat) (size : ℚ) (glyphs : List Glyph) (color : Color)
  | path (position : Vec2) (path : Nat) (color : Color)

/-- A node's stored mouse-up handler. `Button::apply` installs the closure
`if button == MouseButton::Left { on_click() }`, modelled by
`buttonClick cid` where `cid` identifies the `on_click` callback; any
other user-installed closure is an opaque identifier. -/
inductive UpHandler where
  | hOpaque (h : Nat)
  | buttonClick (cid : Nat)
deriving DecidableEq, Repr

/-- `Handlers`: the per-event-kind optional callback slots on a node.
All handlers except the mouse-up slot are opaque callback identifiers. -/
structure Handlers where
  on_mouse_move : Option Nat
  on_mouse_down : Option Nat
  on_mouse_up : Option UpHandler
  on_scroll : Option Nat
  on_key_down : Option Nat
  on_key_up : Option Nat
  on_char : Option Nat
deriving DecidableEq, Repr

/-- `Handlers::default`: every slot empty. -/
def Handlers.default : Handlers := ⟨none, none, none, none, none, none, none⟩

/-- `TypeId` of a value stored in a node's `Box<dyn Any>` state slot,
restricted to the state types occurring in the repository. -/
inductive StateTag where
  | unitTag
  | scrollTag
  | natTag
deriving DecidableEq, Repr

/-- The `Box<dyn Any>` typed state slot, as a closed sum: `()`,
`Scrollable`'s `ScrollState { offset, rx }` (the receiver is its queue
contents), and a `usize`-like extra type to witness type changes. -/
inductive StateVal where
  | unitSt
  | scrollSt (offset : ℚ) (queue : List ℚ)
  | natSt (n : Nat)
deriving DecidableEq, Repr

/-- `(*self.state).type_id()`. -/
def StateVal.tag : StateVal → StateTag
  | .unitSt => .unitTag
  | .scrollSt _ _ => .scrollTag
  | .natSt _ => .natTag

/-- `Node`: the retained tree node. Field order mirrors the source struct:
tag, offset, size, shape, children, hover, dragging, handlers, state. -/
inductive Node : Type where
  | mk (tag : Nat) (offset : Vec2) (size : Vec2) (shape : Shape) (children : List Node)
       (hover : Bool) (dragging : Bool) (handlers : Handlers) (state : StateVal) : Node

def Node.tag : Node → Nat
  | .mk t _ _ _ _ _ _ _ _ => t

def Node.offset : Node → Vec2
  | .mk _ o _ _ _ _ _ _ _ => o

def Node.size : Node → Vec2
  | .mk _ _ s _ _ _ _ _ _ => s

def Node.shape : Node → Shape
  | .mk _ _ _ sh _ _ _ _ _ => sh

def Node.children : Node → List Node
  | .mk _ _ _ _ cs _ _ _ _ => cs

def Node.hover : Node → Bool
  | .mk _ _ _ _ _ hv _ _ _ => hv

def Node.dragging : Node → Bool
  | .mk _ _ _ _ _ _ dr _ _ => dr

def Node.handlers : Node → Handlers
  | .mk _ _ _ _ _ _ _ ha _ => ha

def Node.state : Node → StateVal
  | .mk _ _ _ _ _ _ _ _ st => st

/-- `Node::with_tag`: a freshly constructed empty node carrying `tag`. -/
def Node.with_tag (tag : Nat) : Node :=
  .mk tag ⟨0, 0⟩ ⟨0, 0⟩ .empty [] false false Handlers.default .unitSt

/-- The distinct static address produced by the `id!()` call site inside
`Node::new`. -/
def newTag : Nat := 0

/-- `Node::new`. -/
def Node.new : Node := Node.with_tag newTag

/-- `Node::tag(&mut self, tag) -> bool` (named `retag` here since `tag` is
also the field projection): keep the node if the tag matches, otherwise
replace it wholesale by `Node::with_tag(tag)`. Returns (result of the
comparison, updated node). -/
def Node.retag (tag : Nat) (n : Node) : Bool × Node :=
  if tag = n.tag then (true, n) else (false, Node.with_tag tag)

/-- `Node::set_shape`. -/
def Node.set_shape (sh : Shape) : Node → Node
  | .mk t o s _ cs hv dr ha st => .mk t o s sh cs hv dr ha st

/-- `Node::set_size`. -/
def Node.set_size (width height : ℚ) : Node → Node
  | .mk t o _ sh cs hv dr ha st => .mk t o ⟨width, height⟩ sh cs hv dr ha st

/-- `Node::set_offset`. -/
def Node.set_offset (x y : ℚ) : Node → Node
  | .mk t _ s sh cs hv dr ha st => .mk t ⟨x, y⟩ s sh cs hv dr ha st

def Node.withChildren (cs : List Node) : Node → Node
  | .mk t o s sh _ hv dr ha st => .mk t o s sh cs hv dr ha st

def Node.withHover (hv : Bool) : Node → Node
  | .mk t o s sh cs _ dr ha st => .mk t o s sh cs hv dr ha st

def Node.withDragging (dr : Bool) : Node → Node
  | .mk t o s sh cs hv _ ha st => .mk t o s sh cs hv dr ha st

def Node.withHandlers (ha : Handlers) : Node → Node
  | .mk t o s sh cs hv dr _ st => .mk t o s sh cs hv dr ha st

def Node.withState (st : StateVal) : Node → Node
  | .mk t o s sh cs hv dr ha _ => .mk t o s sh cs hv dr ha st

/-- `Node::on_mouse_up`: install a mouse-up handler. -/
def Node.on_mouse_up (h : UpHandler) (n : Node) : Node :=
  n.withHandlers { n.handlers with on_mouse_up := some h }

/-- `Node::state::<T>(default)`: if the stored value's `TypeId` differs
from `T`, overwrite the slot with `default()`; then `downcast_mut::<T>()`
and `unwrap()`. The `unwrap` panic is modelled as `none`; on success the
returned value is the slot's (possibly replaced) contents together with
the node holding them. -/
def Node.stateGet (t : StateTag) (default : StateVal) (n : Node) : Option (StateVal × Node) :=
  let s := if n.state.tag ≠ t then default else n.state
  if s.tag = t then some (s, n.withState s) else none

/-! ### Event channel (`Receiver` / `Sender`)

The queue is an `Rc<Cell<Vec<T>>>` shared by one receiver and its cloned
senders; execution is single-threaded, so the shared cell is modelled as
one explicit queue value threaded through the operations. -/

/-- `Receiver::poll`: `self.queue.replace(Vec::new()).into_iter()` — swap
the queue out for an empty one and iterate the swapped-out sequence.
Returns (drained values in enqueue order, queue contents afterwards). -/
def Receiver.poll {α : Type} (q : List α) : List α × List α :=
  (q, [])

/-- `Sender::send`: take the queue out of the cell (leaving an empty one),
push the value, and put it back. -/
def Sender.send {α : Type} (q : List α) (v : α) : List α :=
  let taken := q
  let taken := taken ++ [v]
  taken

/-! ### Cursor -/

/-- `Cursor`: a position-tracking view over a node's children used during
reconciliation (`&mut Node` plus an index). -/
structure Cursor where
  node : Node
  index : Nat

/-- `Node::edit_children`. -/
def Node.edit_children (n : Node) : Cursor := ⟨n, 0⟩

/-- `Cursor::add`: `assert!(index <= children.len())` (the assert is shown
to hold on every cursor state reachable from `edit_children`, see
`Cursor.add_index_le`); push a fresh `Node::new` when the index is one past
the end; hand out the slot at the old index and advance. Returns the
updated cursor and the index of the handed-out slot. -/
def Cursor.add (c : Cursor) : Cursor × Nat :=
  let cs := if c.index = c.node.children.length then c.node.children ++ [Node.new]
            else c.node.children
  (⟨c.node.withChildren cs, c.index + 1⟩, c.index)

/-- Read the child slot `Cursor::add` handed out (the `&mut Node` return). -/
def Cursor.slot (c : Cursor) (i : Nat) : Node :=
  c.node.children.getD i Node.new

/-- Write back a mutation performed through the `&mut Node` that
`Cursor::add` handed out. -/
def Cursor.setSlot (c : Cursor) (i : Nat) (slot : Node) : Cursor :=
  ⟨c.node.withChildren (c.node.children.set i slot), c.index⟩

/-- `impl Drop for Cursor`: `self.node.children.truncate(self.index)`. -/
def Cursor.drop (c : Cursor) : Node :=
  c.node.withChildren (c.node.children.take c.index)

/-! ### Declarative elements

Deep embedding of the `Elem` / `ElemList` implementors in the repository
(`Empty`, `Text`, `Padding`, `BackgroundColor`, `Row`, `Button`, and the
`()` / single-element / `Chain` / tuple `ElemList` instances). `Scrollable`
and `Col` are not exercised by any claim and are omitted. -/

/-- A maximum-size layout constraint component: finite, or
`f32::INFINITY` (unbounded). -/
inductive Dim where
  | fin (v : ℚ)
  | inf
deriving DecidableEq, Repr

/-- Subtracting a finite padding from a constraint component
(`f32` infinity minus a finite value stays infinite). -/
def Dim.sub (d : Dim) (q : ℚ) : Dim :=
  match d with
  | .fin v => .fin (v - q)
  | .inf => .inf

/-- `Bounds`. -/
structure Bounds where
  width : Dim
  height : Dim
deriving DecidableEq, Repr

/-- `Bounds::new`. -/
def Bounds.new (width height : Dim) : Bounds := ⟨width, height⟩

/-- The text measurement/layout collaborator (`Font::measure`,
`Font::layout`), a pure function environment: font handle → font size →
text → result. -/
structure Env where
  measure : Nat → ℚ → String → ℚ × ℚ
  layout : Nat → ℚ → String → List Glyph

/-- `id!()` static address inside `Text::apply`. -/
def textTag : Nat := 1

/-- `id!()` static address inside `Padding::apply`. -/
def paddingTag : Nat := 2

/-- `id!()` static address inside `BackgroundColor::apply`. -/
def bgTag : Nat := 3

/-- `id!()` static address inside `Row::apply`. -/
def rowTag : Nat := 4

/-- `id!()` static address inside `Button::apply`. -/
def buttonTag : Nat := 5

mutual

/-- Declarative elements (`impl Elem` types). A `Button`'s `on_click`
callback is identified by `cid`. -/
inductive MElem : Type where
  | emptyE
  | text (font : Nat) (size : ℚ) (content : String)
  | padding (p : ℚ) (child : MElem)
  | bgColor (color : Color) (child : MElem)
  | row (spacing : ℚ) (children : EList)
  | button (child : MElem) (cid : Nat)

/-- Declarative element lists (`impl ElemList` types): `()`, a single
`Elem`, `Chain`, and the tuple instances. -/
inductive EList : Type where
  | unitL
  | single (e : MElem)
  | chainL (a b : EList)
  | tupL (es : MList)

/-- Cons list of elements (the components of a tuple `ElemList`). -/
inductive MList : Type where
  | mnil
  | mcons (e : MElem) (es : MList)

end

mutual

/-- Termination measure for element application: structural size, with
`button` weighted to dominate the `BackgroundColor`/`Padding` wrapper it
constructs around its child inside its own `apply`. -/
def MElem.weight : MElem → Nat
  | .emptyE => 1
  | .text _ _ _ => 1
  | .padding _ c => c.weight + 1
  | .bgColor _ c => c.weight + 1
  | .row _ cs => cs.weightL + 1
  | .button c _ => c.weight + 3

/-- Termination measure for element lists. -/
def EList.weightL : EList → Nat
  | .unitL => 1
  | .single e => e.weight + 1
  | .chainL a b => a.weightL + b.weightL + 1
  | .tupL es => es.weightM + 1

/-- Termination measure for tuple element lists. -/
def MList.weightM : MList → Nat
  | .mnil => 1
  | .mcons e es => e.weight + es.weightM + 1

end

/-- The `Row::apply` placement loop: walk the children left to right,
assigning offsets and accumulating the packed x extent and max height. -/
def rowPlace (spacing : ℚ) : List Node → ℚ → ℚ → List Node × ℚ × ℚ
  | [], x, height => ([], x, height)
  | c :: cs, x, height =>
    let c := c.set_offset x 0
    let rest := rowPlace spacing cs (x + c.size.x + spacing) (max height c.size.y)
    (c :: rest.1, rest.2)

mutual

/-- `Elem::apply(self, node, bounds)` for each element type, translated
case by case from the source `impl Elem for _` blocks. -/
def MElem.apply (env : Env) : MElem → Bounds → Node → Node
  | .emptyE, _, n => n
  | .text f sz txt, _, n =>
    let n := (n.retag textTag).2
    let n := n.set_shape (.text ⟨0, 0⟩ f sz (env.layout f sz txt) (Color.rgba 1 1 1 1))
    let wh := env.measure f sz txt
    n.set_size wh.1 wh.2
  | .padding p c, bounds, n =>
    let n := (n.retag paddingTag).2
    let cur := (n.edit_children).add
    let cur2 := cur.1.setSlot cur.2
      (MElem.apply env c (Bounds.new (bounds.width.sub (2 * p)) (bounds.height.sub (2 * p)))
        (cur.1.slot cur.2))
    let n := cur2.drop
    let child := (n.children.getD 0 Node.new).set_offset p p
    let n := n.withChildren (n.children.set 0 child)
    n.set_size (child.size.x + 2 * p) (child.size.y + 2 * p)
  | .bgColor color c, bounds, n =>
    let n := (n.retag bgTag).2
    let cur := (n.edit_children).add
    let cur2 := cur.1.setSlot cur.2 (MElem.apply env c bounds (cur.1.slot cur.2))
    let n := cur2.drop
    let child := n.children.getD 0 Node.new
    let n := n.set_shape (.rect ⟨0, 0⟩ ⟨child.size.x, child.size.y⟩ color)
    n.set_size child.size.x child.size.y
  | .row spacing cs, bounds, n =>
    let n := (n.retag rowTag).2
    let n := (EList.apply_all env cs (Bounds.new .inf bounds.height) (n.edit_children)).drop
    let placed := rowPlace spacing n.children 0 0
    let n := n.withChildren placed.1
    n.set_size (max (placed.2.1 - spacing) 0) placed.2.2
  | .button c cid, bounds, n =>
    let n := (n.retag buttonTag).2
    let n := n.on_mouse_up (.buttonClick cid)
    let color :=
      if n.dragging then Color.rgba (141/1000) (44/100) (77/100) 1
      else if n.hover then Color.rgba (54/100) (63/100) (71/100) 1
      else Color.rgba (38/100) (42/100) (48/100) 1
    let cur := (n.edit_children).add
    let cur2 := cur.1.setSlot cur.2
      (MElem.apply env (.bgColor color (.padding 5 c)) bounds (cur.1.slot cur.2))
    let n := cur2.drop
    let child := n.children.getD 0 Node.new
    n.set_size child.size.x child.size.y
termination_by e _ _ => e.weight
decreasing_by
  all_goals (simp [MElem.weight, EList.weightL, MList.weightM]; try omega)

/-- `ElemList::apply_all(self, cursor, bounds)` for each list type:
`()` applies nothing; a single `Elem` applies itself onto `cursor.add()`;
`Chain` applies its first list then its second; a tuple applies its
members in positional order. -/
def EList.apply_all (env : Env) : EList → Bounds → Cursor → Cursor
  | .unitL, _, c => c
  | .single e, bounds, c =>
    let cur := c.add
    cur.1.setSlot cur.2 (MElem.apply env e bounds (cur.1.slot cur.2))
  | .chainL a b, bounds, c => EList.apply_all env b bounds (EList.apply_all env a bounds c)
  | .tupL es, bounds, c => MList.apply_tup env es bounds c
termination_by l _ _ => l.weightL
decreasing_by
  all_goals (simp [MElem.weight, EList.weightL, MList.weightM]; try omega)

/-- Tuple members applied in positional order to successive cursor slots
(the body of the `tuple_elem_list!` macro expansion). -/
def MList.apply_tup (env : Env) : MList → Bounds → Cursor → Cursor
  | .mnil, _, c => c
  | .mcons e es, bounds, c =>
    let cur := c.add
    MList.apply_tup env es bounds
      (cur.1.setSlot cur.2 (MElem.apply env e bounds (cur.1.slot cur.2)))
termination_by es _ _ => es.weightM
decreasing_by
  all_goals (simp [MElem.weight, EList.weightL, MList.weightM]; try omega)

end

/-- Length of a tuple element list. -/
def MList.len : MList → Nat
  | .mnil => 0
  | .mcons _ es => es.len + 1

/-- The elements of a tuple list in order. -/
def MList.toList : MList → List MElem
  | .mnil => []
  | .mcons e es => e :: es.toList

/-- Number of `cursor.add()` calls an `ElemList` performs. -/
def EList.slotCount : EList → Nat
  | .unitL => 0
  | .single _ => 1
  | .chainL a b => a.slotCount + b.slotCount
  | .tupL es => es.len

/-- The elements of an `ElemList` in application order. -/
def EList.slots : EList → List MElem
  | .unitL => []
  | .single e => [e]
  | .chainL a b => a.slots ++ b.slots
  | .tupL es => es.toList

/-- Applying one element onto the next cursor slot (`cursor.add()` then
`elem.apply` on the handed-out slot) — the common step all `ElemList`
instances reduce to. -/
def applyStep (env : Env) (bounds : Bounds) (c : Cursor) (e : MElem) : Cursor :=
  let cur := c.add
  cur.1.setSlot cur.2 (MElem.apply env e bounds (cur.1.slot cur.2))

/-- Applying a plain sequence of elements to successive cursor slots. -/
def applySlots (env : Env) (bounds : Bounds) (es : List MElem) (c : Cursor) : Cursor :=
  es.foldl (applyStep env bounds) c

/-- One whole reconciliation pass over a node's children: obtain a cursor
via `edit_children`, run the `ElemList` through it, then drop the cursor. -/
def applyList (env : Env) (l : EList) (bounds : Bounds) (n : Node) : Node :=
  (EList.apply_all env l bounds (n.edit_children)).drop

/-! ### Input routing -/

/-- Observable effects of dispatching input: handler invocations.
`click cid` is `Button`'s `on_click` callback firing; `sent` is a value
enqueued on an event channel; the rest are invocations of opaque
user-installed handlers. -/
inductive Eff where
  | moveRun (h : Nat)
  | downRun (h : Nat) (b : MouseButton)
  | upRun (h : Nat) (b : MouseButton)
  | click (cid : Nat)
  | scrollRun (h : Nat) (dx dy : ℚ)
  | sent (ch : Nat) (v : ℚ)
deriving DecidableEq, Repr

/-- Invoke a stored mouse-up handler: an opaque one just runs; `Button`'s
installed closure `if button == MouseButton::Left { on_click() }` emits a
click only for the left button. -/
def UpHandler.invoke (h : UpHandler) (b : MouseButton) : List Eff :=
  match h with
  | .hOpaque i => [.upRun i b]
  | .buttonClick cid => if b = .left then [.click cid] else []

/-- The fresh hit test in the `Input::MouseMove` arm:
`mouse_x >= offset.x && mouse_x < offset.x + size.x && mouse_y >= offset.y
&& mouse_y < offset.y + size.y`, where `offset` is the node's absolute
offset. -/
def hoverCalc (st : InputState) (off : Vec2) (size : Vec2) : Bool :=
  decide (off.x ≤ st.mouse_x) && decide (st.mouse_x < off.x + size.x) &&
  decide (off.y ≤ st.mouse_y) && decide (st.mouse_y < off.y + size.y)

mutual

/-- `Node::input_inner(input, input_state, offset)`, translated arm by arm.
Returns the updated node and the trace of handler invocations, in
invocation order (own handler first, then children in order). -/
def Node.inputInner (e : Input) (st : InputState) (off : Vec2) : Node → Node × List Eff
  | .mk t o s sh cs hv dr ha stv =>
    let off2 := off + o
    match e with
    | .mouseMove =>
      let hov := hoverCalc st off2 s
      if dr || hv || hov then
        let effH : List Eff := match ha.on_mouse_move with
          | some h => [.moveRun h]
          | none => []
        let r := inputList e st off2 cs
        (.mk t o s sh r.1 hov dr ha stv, effH ++ r.2)
      else
        (.mk t o s sh cs hov dr ha stv, [])
    | .mouseDown b =>
      if hv then
        let effH : List Eff := match ha.on_mouse_down with
          | some h => [.downRun h b]
          | none => []
        let r := inputList e st off2 cs
        (.mk t o s sh r.1 hv true ha stv, effH ++ r.2)
      else
        (.mk t o s sh cs hv dr ha stv, [])
    | .mouseUp b =>
      if hv || dr then
        let effH : List Eff := match ha.on_mouse_up with
          | some h => h.invoke b
          | none => []
        let r := inputList e st off2 cs
        (.mk t o s sh r.1 hv false ha stv, effH ++ r.2)
      else
        (.mk t o s sh cs hv false ha stv, [])
    | .scroll dx dy =>
      if hv || dr then
        let effH : List Eff := match ha.on_scroll with
          | some h => [.scrollRun h dx dy]
          | none => []
        let r := inputList e st off2 cs
        (.mk t o s sh r.1 hv dr ha stv, effH ++ r.2)
      else
        (.mk t o s sh cs hv dr ha stv, [])
    | .keyDown _ => (.mk t o s sh cs hv dr ha stv, [])
    | .keyUp _ => (.mk t o s sh cs hv dr ha stv, [])
    | .char _ => (.mk t o s sh cs hv dr ha stv, [])

/-- The `for child in self.children.iter_mut()` dispatch loop. -/
def inputList (e : Input) (st : InputState) (off : Vec2) : List Node → List Node × List Eff
  | [] => ([], [])
  | c :: cs =>
    let r := c.inputInner e st off
    let rs := inputList e st off cs
    (r.1 :: rs.1, r.2 ++ rs.2)

end

/-- `Node::input`: route an event from the root with zero parent offset. -/
def Node.input (e : Input) (st : InputState) (n : Node) : Node × List Eff :=
  n.inputInner e st ⟨0, 0⟩

/-! ### Basic algebra of nodes, vectors and the routing step -/

@[simp] theorem Vec2.add_zero (a : Vec2) : a + (⟨0, 0⟩ : Vec2) = a := by
  cases a with
  | mk x y =>
    show Vec2.mk (x + 0) (y + 0) = Vec2.mk x y
    rw [Rat.add_zero, Rat.add_zero]

theorem Vec2.add_assoc (a b c : Vec2) : a + b + c = a + (b + c) := by
  cases a with
  | mk ax ay =>
    cases b with
    | mk bx by2 =>
      cases c with
      | mk cx cy =>
        show Vec2.mk (ax + bx + cx) (ay + by2 + cy) = Vec2.mk (ax + (bx + cx)) (ay + (by2 + cy))
        rw [Rat.add_assoc, Rat.add_assoc]

section NodeSimp

variable (t : Nat) (o s : Vec2) (sh : Shape) (cs : List Node)
  (hv dr : Bool) (ha : Handlers) (stv : StateVal)

@[simp] theorem Node.tag_mk : (Node.mk t o s sh cs hv dr ha stv).tag = t := rfl

@[simp] theorem Node.offset_mk : (Node.mk t o s sh cs hv dr ha stv).offset = o := rfl

@[simp] theorem Node.size_mk : (Node.mk t o s sh cs hv dr ha stv).size = s := rfl

@[simp] theorem Node.shape_mk : (Node.mk t o s sh cs hv dr ha stv).shape = sh := rfl

@[simp] theorem Node.children_mk : (Node.mk t o s sh cs hv dr ha stv).children = cs := rfl

@[simp] theorem Node.hover_mk : (Node.mk t o s sh cs hv dr ha stv).hover = hv := rfl

@[simp] theorem Node.dragging_mk : (Node.mk t o s sh cs hv dr ha stv).dragging = dr := rfl

@[simp] theorem Node.handlers_mk : (Node.mk t o s sh cs hv dr ha stv).handlers = ha := rfl

@[simp] theorem Node.state_mk : (Node.mk t o s sh cs hv dr ha stv).state = stv := rfl

end NodeSimp

@[simp] theorem Node.withChildren_children (n : Node) (cs : List Node) :
    (n.withChildren cs).children = cs := by cases n; rfl

@[simp] theorem Node.withChildren_tag (n : Node) (cs : List Node) :
    (n.withChildren cs).tag = n.tag := by cases n; rfl

@[simp] theorem Node.withChildren_offset (n : Node) (cs : List Node) :
    (n.withChildren cs).offset = n.offset := by cases n; rfl

@[simp] theorem Node.withChildren_size (n : Node) (cs : List Node) :
    (n.withChildren cs).size = n.size := by cases n; rfl

@[simp] theorem Node.withChildren_shape (n : Node) (cs : List Node) :
    (n.withChildren cs).shape = n.shape := by cases n; rfl

@[simp] theorem Node.withChildren_hover (n : Node) (cs : List Node) :
    (n.withChildren cs).hover = n.hover := by cases n; rfl

@[simp] theorem Node.withChildren_dragging (n : Node) (cs : List Node) :
    (n.withChildren cs).dragging = n.dragging := by cases n; rfl

@[simp] theorem Node.withChildren_handlers (n : Node) (cs : List Node) :
    (n.withChildren cs).handlers = n.handlers := by cases n; rfl

@[simp] theorem Node.withChildren_state (n : Node) (cs : List Node) :
    (n.withChildren cs).state = n.state := by cases n; rfl

/-- Whether `input_inner` dispatches to handlers and recurses into the
children, per event arm (`off` is the accumulated parent offset with which
the node is reached). -/
def gate (e : Input) (st : InputState) (off : Vec2) (n : Node) : Bool :=
  match e with
  | .mouseMove => n.dragging || n.hover || hoverCalc st (off + n.offset) n.size
  | .mouseDown _ => n.hover
  | .mouseUp _ => n.hover || n.dragging
  | .scroll _ _ => n.hover || n.dragging
  | .keyDown _ => false
  | .keyUp _ => false
  | .char _ => false

/-- The update `input_inner` applies to the node's own flag fields. -/
def flagsUpd (e : Input) (st : InputState) (off : Vec2) (n : Node) : Node :=
  match e with
  | .mouseMove => n.withHover (hoverCalc st (off + n.offset) n.size)
  | .mouseDown _ => if n.hover then n.withDragging true else n
  | .mouseUp _ => n.withDragging false
  | _ => n

/-- The handler invocations `input_inner` performs on the node itself when
its gate passes. -/
def selfEff (e : Input) (n : Node) : List Eff :=
  match e with
  | .mouseMove => match n.handlers.on_mouse_move with
    | some h => [.moveRun h]
    | none => []
  | .mouseDown b => match n.handlers.on_mouse_down with
    | some h => [.downRun h b]
    | none => []
  | .mouseUp b => match n.handlers.on_mouse_up with
    | some h => h.invoke b
    | none => []
  | .scroll dx dy => match n.handlers.on_scroll with
    | some h => [.scrollRun h dx dy]
    | none => []
  | .keyDown _ => []
  | .keyUp _ => []
  | .char _ => []

theorem inputList_fst (e : Input) (st : InputState) (off : Vec2) (cs : List Node) :
    (inputList e st off cs).1 = cs.map (fun c => (c.inputInner e st off).1) := by
  induction cs with
  | nil => rfl
  | cons c cs ih => simp [inputList, ih]

theorem inputList_snd (e : Input) (st : InputState) (off : Vec2) (cs : List Node) :
    (inputList e st off cs).2 = (cs.map (fun c => (c.inputInner e st off).2)).flatten := by
  induction cs with
  | nil => rfl
  | cons c cs ih => simp [inputList, ih]

/-- Characterization of the node returned by `input_inner`: the own-flag
update always happens; the children are rewritten (each child routed with
the accumulated offset) exactly when the gate passes. -/
theorem inputInner_fst (e : Input) (st : InputState) (off : Vec2) (n : Node) :
    (n.inputInner e st off).1 =
      if gate e st off n then
        (flagsUpd e st off n).withChildren
          (n.children.map (fun c => (c.inputInner e st (off + n.offset)).1))
      else flagsUpd e st off n := by
  cases n with
  | mk t o s sh cs hv dr ha stv =>
    cases e <;>
      simp only [Node.inputInner, gate, flagsUpd, inputList_fst, Node.children_mk,
        Node.dragging_mk, Node.hover_mk, Node.offset_mk, Node.size_mk, Node.withHover,
        Node.withDragging, Node.withChildren] <;>
      split <;>
      simp_all [Node.withHover, Node.withDragging, Node.withChildren]

/-- Characterization of the effect trace returned by `input_inner`. -/
theorem inputInner_snd (e : Input) (st : InputState) (off : Vec2) (n : Node) :
    (n.inputInner e st off).2 =
      if gate e st off n then
        selfEff e n ++ (n.children.map (fun c => (c.inputInner e st (off + n.offset)).2)).flatten
      else [] := by
  cases n with
  | mk t o s sh cs hv dr ha stv =>
    cases e <;>
      simp only [Node.inputInner, gate, selfEff, inputList_snd, Node.children_mk,
        Node.dragging_mk, Node.hover_mk, Node.offset_mk, Node.size_mk, Node.handlers_mk] <;>
      split <;> simp_all

@[simp] theorem flagsUpd_tag (e : Input) (st : InputState) (off : Vec2) (n : Node) :
    (flagsUpd e st off n).tag = n.tag := by
  cases n with
  | mk t o s sh cs hv dr ha stv =>
    cases e <;> simp only [flagsUpd, Node.withHover, Node.withDragging, Node.tag_mk] <;>
      first
        | rfl
        | (cases hv <;> rfl)

@[simp] theorem flagsUpd_offset (e : Input) (st : InputState) (off : Vec2) (n : Node) :
    (flagsUpd e st off n).offset = n.offset := by
  cases n with
  | mk t o s sh cs hv dr ha stv =>
    cases e <;> simp only [flagsUpd, Node.withHover, Node.withDragging, Node.offset_mk] <;>
      first
        | rfl
        | (cases hv <;> rfl)

@[simp] theorem flagsUpd_size (e : Input) (st : InputState) (off : Vec2) (n : Node) :
    (flagsUpd e st off n).size = n.size := by
  cases n with
  | mk t o s sh cs hv dr ha stv =>
    cases e <;> simp only [flagsUpd, Node.withHover, Node.withDragging, Node.size_mk] <;>
      first
        | rfl
        | (cases hv <;> rfl)

@[simp] theorem flagsUpd_shape (e : Input) (st : InputState) (off : Vec2) (n : Node) :
    (flagsUpd e st off n).shape = n.shape := by
  cases n with
  | mk t o s sh cs hv dr ha stv =>
    cases e <;> simp only [flagsUpd, Node.withHover, Node.withDragging, Node.shape_mk] <;>
      first
        | rfl
        | (cases hv <;> rfl)

@[simp] theorem flagsUpd_handlers (e : Input) (st : InputState) (off : Vec2) (n : Node) :
    (flagsUpd e st off n).handlers = n.handlers := by
  cases n with
  | mk t o s sh cs hv dr ha stv =>
    cases e <;> simp only [flagsUpd, Node.withHover, Node.withDragging, Node.handlers_mk] <;>
      first
        | rfl
        | (cases hv <;> rfl)

@[simp] theorem flagsUpd_state (e : Input) (st : InputState) (off : Vec2) (n : Node) :
    (flagsUpd e st off n).state = n.state := by
  cases n with
  | mk t o s sh cs hv dr ha stv =>
    cases e <;> simp only [flagsUpd, Node.withHover, Node.withDragging, Node.state_mk] <;>
      first
        | rfl
        | (cases hv <;> rfl)

@[simp] theorem flagsUpd_children (e : Input) (st : InputState) (off : Vec2) (n : Node) :
    (flagsUpd e st off n).children = n.children := by
  cases n with
  | mk t o s sh cs hv dr ha stv =>
    cases e <;> simp only [flagsUpd, Node.withHover, Node.withDragging, Node.children_mk] <;>
      first
        | rfl
        | (cases hv <;> rfl)

theorem flagsUpd_dragging (e : Input) (st : InputState) (off : Vec2) (n : Node) :
    (flagsUpd e st off n).dragging =
      match e with
      | .mouseDown _ => n.dragging || n.hover
      | .mouseUp _ => false
      | _ => n.dragging := by
  cases n with
  | mk t o s sh cs hv dr ha stv =>
    cases e <;>
      simp only [flagsUpd, Node.withHover, Node.withDragging, Node.dragging_mk, Node.hover_mk] <;>
      first
        | rfl
        | (cases hv <;> simp)

theorem flagsUpd_hover (e : Input) (st : InputState) (off : Vec2) (n : Node) :
    (flagsUpd e st off n).hover =
      match e with
      | .mouseMove => hoverCalc st (off + n.offset) n.size
      | _ => n.hover := by
  cases n with
  | mk t o s sh cs hv dr ha stv =>
    cases e <;>
      simp only [flagsUpd, Node.withHover, Node.withDragging, Node.hover_mk] <;>
      first
        | rfl
        | (cases hv <;> rfl)

theorem inputInner_fst_dragging (e : Input) (st : InputState) (off : Vec2) (n : Node) :
    ((n.inputInner e st off).1).dragging = (flagsUpd e st off n).dragging := by
  rw [inputInner_fst]
  split <;> simp

theorem inputInner_fst_hover (e : Input) (st : InputState) (off : Vec2) (n : Node) :
    ((n.inputInner e st off).1).hover = (flagsUpd e st off n).hover := by
  rw [inputInner_fst]
  split <;> simp

/-- Structural induction over the retained tree (the nested `List Node`
children handled through membership). -/
theorem Node.recAux {P : Node → Prop}
    (h : ∀ t o s sh cs hv dr ha stv,
      (∀ c ∈ cs, P c) → P (.mk t o s sh cs hv dr ha stv)) :
    ∀ n, P n
  | .mk t o s sh cs hv dr ha stv =>
    h t o s sh cs hv dr ha stv (fun c hc =>
      have : sizeOf c < sizeOf (Node.mk t o s sh cs hv dr ha stv) := by
        have := List.sizeOf_lt_of_mem hc
        simp only [Node.mk.sizeOf_spec]
        omega
      Node.recAux h c)
termination_by n => sizeOf n

/-! ### Path addressing into the retained tree -/

/-- The node reached from `n` by descending through the given child
indices. -/
def Node.nodeAt : Node → List Nat → Option Node
  | n, [] => some n
  | n, i :: p =>
    match n.children[i]? with
    | some c => c.nodeAt p
    | none => none

/-- Sum of the `offset` fields of the nodes strictly above the addressed
node (the accumulated offset with which `input_inner` reaches it). -/
def Node.offAbove : Node → List Nat → Vec2
  | _, [] => ⟨0, 0⟩
  | n, i :: p =>
    match n.children[i]? with
    | some c => n.offset + c.offAbove p
    | none => ⟨0, 0⟩

/-- All routing gates on the nodes strictly above the addressed node pass
(so the event dispatch descends all the way to it). -/
def gatesAll (e : Input) (st : InputState) : Node → Vec2 → List Nat → Bool
  | _, _, [] => true
  | n, off, i :: p =>
    gate e st off n &&
      match n.children[i]? with
      | some c => gatesAll e st c (off + n.offset) p
      | none => true

@[simp] theorem Node.nodeAt_nil (n : Node) : n.nodeAt [] = some n := rfl

@[simp] theorem gatesAll_nil (e : Input) (st : InputState) (n : Node) (off : Vec2) :
    gatesAll e st n off [] = true := rfl

/-- Transport: where the routed event descends (all gates above pass), the
subtree at a path is routed with the accumulated offset; where some gate
above fails, the subtree is untouched. -/
theorem nodeAt_inputInner (e : Input) (st : InputState) :
    ∀ (p : List Nat) (n : Node) (off : Vec2) (A : Node),
      n.nodeAt p = some A →
      ((n.inputInner e st off).1).nodeAt p =
        some (if gatesAll e st n off p then (A.inputInner e st (off + n.offAbove p)).1 else A) := by
  intro p
  induction p with
  | nil =>
    intro n off A hA
    simp only [Node.nodeAt_nil, Option.some.injEq] at hA
    subst hA
    simp [Node.offAbove]
  | cons i p ih =>
    intro n off A hA
    simp only [Node.nodeAt] at hA
    cases hc : n.children[i]? with
    | none => rw [hc] at hA; exact absurd hA (by simp)
    | some c =>
      rw [hc] at hA
      rw [inputInner_fst]
      by_cases hg : gate e st off n
      · rw [if_pos hg]
        have hcm : ((flagsUpd e st off n).withChildren
            (n.children.map (fun c => (c.inputInner e st (off + n.offset)).1))).children[i]?
            = some ((c.inputInner e st (off + n.offset)).1) := by
          simp [Node.withChildren_children, List.getElem?_map, hc]
        simp only [Node.nodeAt, hcm]
        rw [ih c (off + n.offset) A hA]
        simp only [gatesAll, hg, Bool.true_and, hc, Node.offAbove]
        by_cases hrest : gatesAll e st c (off + n.offset) p
        · rw [if_pos hrest, if_pos hrest, Vec2.add_assoc]
        · rw [if_neg hrest, if_neg hrest]
      · rw [if_neg hg]
        have : (flagsUpd e st off n).children[i]? = some c := by
          rw [flagsUpd_children, hc]
        simp only [Node.nodeAt, this, hA]
        simp only [gatesAll, hc]
        have hgb : gate e st off n = false := by
          cases hgg : gate e st off n
          · rfl
          · exact absurd hgg hg
        rw [hgb]
        simp
        exact hA

/-- Transport for the effect trace: if the dispatch descends to the node
at `p` and that node's own gate passes, its own handler invocations appear
in the root trace. -/
theorem selfEff_mem_inputInner (e : Input) (st : InputState) :
    ∀ (p : List Nat) (n : Node) (off : Vec2) (A : Node),
      n.nodeAt p = some A →
      gatesAll e st n off p = true →
      gate e st (off + n.offAbove p) A = true →
      ∀ x ∈ selfEff e A, x ∈ (n.inputInner e st off).2 := by
  intro p
  induction p with
  | nil =>
    intro n off A hA _ hg x hx
    simp only [Node.nodeAt_nil, Option.some.injEq] at hA
    subst hA
    rw [Node.offAbove, Vec2.add_zero] at hg
    rw [inputInner_snd, if_pos hg]
    exact List.mem_append_left _ hx
  | cons i p ih =>
    intro n off A hA hgs hg x hx
    simp only [Node.nodeAt] at hA
    cases hc : n.children[i]? with
    | none => rw [hc] at hA; exact absurd hA (by simp)
    | some c =>
      rw [hc] at hA
      simp only [gatesAll, hc, Bool.and_eq_true] at hgs
      rw [Node.offAbove, hc, ← Vec2.add_assoc] at hg
      have hmem : x ∈ (c.inputInner e st (off + n.offset)).2 :=
        ih c (off + n.offset) A hA hgs.2 hg x hx
      rw [inputInner_snd, if_pos hgs.1]
      refine List.mem_append_right _ ?_
      refine List.mem_flatten.2 ⟨(c.inputInner e st (off + n.offset)).2, ?_, hmem⟩
      exact List.mem_map_of_mem _ (List.getElem?_mem hc)

/-! ### The interaction-state invariant and reachability -/

/-- A dragging child has a dragging parent, hereditarily. This is the key
invariant that makes the implicit pointer capture work: it guarantees a
`MouseUp` is forwarded all the way down to every dragging node. -/
inductive Inv : Node → Prop where
  | mk (n : Node) :
      (∀ c ∈ n.children, c.dragging = true → n.dragging = true) →
      (∀ c ∈ n.children, Inv c) → Inv n

theorem Inv.drag_up {n : Node} (h : Inv n) :
    ∀ c ∈ n.children, c.dragging = true → n.dragging = true := by
  cases h; assumption

theorem Inv.childInv {n : Node} (h : Inv n) : ∀ c ∈ n.children, Inv c := by
  cases h; assumption

/-- Every node in the tree is idle: not hovered, not dragging. -/
inductive AllIdle : Node → Prop where
  | mk (n : Node) :
      n.hover = false → n.dragging = false →
      (∀ c ∈ n.children, AllIdle c) → AllIdle n

theorem AllIdle.hover_eq {n : Node} (h : AllIdle n) : n.hover = false := by
  cases h; assumption

theorem AllIdle.dragging_eq {n : Node} (h : AllIdle n) : n.dragging = false := by
  cases h; assumption

theorem AllIdle.childIdle {n : Node} (h : AllIdle n) : ∀ c ∈ n.children, AllIdle c := by
  cases h; assumption

/-- Trees reachable from an all-idle tree by routing any sequence of input
events from the root (no reconciliation in between). -/
inductive Reach : Node → Prop where
  | init (n : Node) : AllIdle n → Reach n
  | step (e : Input) (st : InputState) (n : Node) : Reach n → Reach ((n.input e st).1)

theorem AllIdle_Inv : ∀ n, AllIdle n → Inv n :=
  Node.recAux (fun t o s sh cs hv dr ha stv ihc hIdle => by
    refine Inv.mk _ ?_ ?_
    · intro c hc hcd
      have := (hIdle.childIdle c hc).dragging_eq
      rw [this] at hcd
      cases hcd
    · intro c hc
      exact ihc c hc (hIdle.childIdle c hc))

/-- Routing any single event preserves the capture invariant. -/
theorem Inv_inputInner (e : Input) (st : InputState) :
    ∀ n, Inv n → ∀ off, Inv ((n.inputInner e st off).1) :=
  Node.recAux (fun t o s sh cs hv dr ha stv ihc hInv off => by
    rw [inputInner_fst]
    by_cases hg : gate e st off (Node.mk t o s sh cs hv dr ha stv) = true
    · rw [if_pos hg]
      refine Inv.mk _ ?_ ?_
      · intro c' hc' hd'
        rw [Node.withChildren_children] at hc'
        rcases List.mem_map.1 hc' with ⟨c, hc, rfl⟩
        rw [inputInner_fst_dragging, flagsUpd_dragging] at hd'
        rw [Node.withChildren_dragging, flagsUpd_dragging]
        cases e with
        | mouseMove =>
          simp only at hd' ⊢
          simp only [Node.dragging_mk]
          exact hInv.drag_up c hc hd'
        | mouseDown b =>
          simp only [gate, Node.hover_mk] at hg
          simp only [Node.dragging_mk, Node.hover_mk, hg, Bool.or_true]
        | mouseUp b =>
          simp only at hd'
          cases hd'
        | scroll dx dy =>
          simp only at hd' ⊢
          simp only [Node.dragging_mk]
          exact hInv.drag_up c hc hd'
        | keyDown k => simp [gate] at hg
        | keyUp k => simp [gate] at hg
        | char ch => simp [gate] at hg
      · intro c' hc'
        rw [Node.withChildren_children] at hc'
        rcases List.mem_map.1 hc' with ⟨c, hc, rfl⟩
        exact ihc c hc (hInv.childInv c hc) _
    · rw [if_neg hg]
      refine Inv.mk _ ?_ ?_
      · intro c hc hcd
        rw [flagsUpd_children] at hc
        have hnd : dr = true := by
          have := hInv.drag_up c hc hcd
          simpa using this
        rw [flagsUpd_dragging]
        cases e with
        | mouseMove => simpa using hnd
        | mouseDown b => simp [hnd]
        | mouseUp b =>
          simp only [gate, Node.hover_mk, Node.dragging_mk] at hg
          simp [hnd] at hg
        | scroll dx dy => simpa using hnd
        | keyDown k => simpa using hnd
        | keyUp k => simpa using hnd
        | char ch => simpa using hnd
      · intro c hc
        rw [flagsUpd_children] at hc
        exact (hInv.childInv c hc))

theorem Reach_Inv {n : Node} (h : Reach n) : Inv n := by
  induction h with
  | init n hIdle => exact AllIdle_Inv n hIdle
  | step e st n _ ih => exact Inv_inputInner e st n ih _

/-- Under the capture invariant, a dragging node forces `dragging` on the
whole path above it. -/
theorem Inv_drag_path :
    ∀ (p : List Nat) (n A : Node), Inv n → n.nodeAt p = some A →
      A.dragging = true → n.dragging = true := by
  intro p
  induction p with
  | nil =>
    intro n A _ hA hd
    simp only [Node.nodeAt_nil, Option.some.injEq] at hA
    subst hA; exact hd
  | cons i p ih =>
    intro n A hInv hA hd
    simp only [Node.nodeAt] at hA
    cases hc : n.children[i]? with
    | none => rw [hc] at hA; exact absurd hA (by simp)
    | some c =>
      rw [hc] at hA
      have hcmem := List.getElem?_mem hc
      have hcd : c.dragging = true := ih c A (hInv.childInv c hcmem) hA hd
      exact hInv.drag_up c hcmem hcd

/-- Under the capture invariant, the `MouseUp` dispatch gates above a
dragging node all pass. -/
theorem Inv_gatesAll_mouseUp (b : MouseButton) (st : InputState) :
    ∀ (p : List Nat) (n A : Node) (off : Vec2), Inv n → n.nodeAt p = some A →
      A.dragging = true → gatesAll (.mouseUp b) st n off p = true := by
  intro p
  induction p with
  | nil => intro n A off _ _ _; rfl
  | cons i p ih =>
    intro n A off hInv hA hd
    simp only [Node.nodeAt] at hA
    cases hc : n.children[i]? with
    | none => rw [hc] at hA; exact absurd hA (by simp)
    | some c =>
      rw [hc] at hA
      have hcmem := List.getElem?_mem hc
      have hcd : c.dragging = true := Inv_drag_path p c A (hInv.childInv c hcmem) hA hd
      have hnd : n.dragging = true := hInv.drag_up c hcmem hcd
      simp only [gatesAll, hc, Bool.and_eq_true]
      refine ⟨?_, ih c A (off + n.offset) (hInv.childInv c hcmem) hA hd⟩
      simp [gate, hnd]

/-! ### Small helper lemmas about node updates -/

theorem Node.withState_state_self (n : Node) : n.withState n.state = n := by
  cases n; rfl

@[simp] theorem Node.withState_state (n : Node) (v : StateVal) :
    (n.withState v).state = v := by cases n; rfl

@[simp] theorem Node.set_size_size (n : Node) (w h : ℚ) :
    (n.set_size w h).size = ⟨w, h⟩ := by cases n; rfl

@[simp] theorem Node.set_size_handlers (n : Node) (w h : ℚ) :
    (n.set_size w h).handlers = n.handlers := by cases n; rfl

@[simp] theorem Node.set_size_children (n : Node) (w h : ℚ) :
    (n.set_size w h).children = n.children := by cases n; rfl

@[simp] theorem Node.set_offset_size (n : Node) (x y : ℚ) :
    (n.set_offset x y).size = n.size := by cases n; rfl

@[simp] theorem Node.set_offset_offset (n : Node) (x y : ℚ) :
    (n.set_offset x y).offset = ⟨x, y⟩ := by cases n; rfl

@[simp] theorem Node.set_shape_size (n : Node) (sh : Shape) :
    (n.set_shape sh).size = n.size := by cases n; rfl

@[simp] theorem Node.set_shape_children (n : Node) (sh : Shape) :
    (n.set_shape sh).children = n.children := by cases n; rfl

@[simp] theorem Node.set_shape_handlers (n : Node) (sh : Shape) :
    (n.set_shape sh).handlers = n.handlers := by cases n; rfl

@[simp] theorem Node.on_mouse_up_handlers_up (n : Node) (h : UpHandler) :
    (n.on_mouse_up h).handlers.on_mouse_up = some h := by
  cases n; rfl

/-! ## Claim C7 — event channel ordering, drain-to-empty, reentrancy -/

/-- C7: with one receiver and any senders sharing its queue, sending
`v1, v2, v3` in order and then polling yields exactly `[v1, v2, v3]` and
leaves the queue empty; an immediately following second poll yields `[]`;
and a send performed on the post-poll queue (i.e. while iterating the
swapped-out sequence) lands in the fresh queue only: the first poll's
output is unaffected and the next poll yields exactly the new value. -/
theorem channel_order_drain_reentrancy {α : Type} (v1 v2 v3 v4 : α) (q : List α) :
    Receiver.poll (Sender.send (Sender.send (Sender.send [] v1) v2) v3) = ([v1, v2, v3], []) ∧
    Receiver.poll ((Receiver.poll (Sender.send (Sender.send (Sender.send [] v1) v2) v3)).2)
      = ([], []) ∧
    (Receiver.poll q).1 = q ∧
    Receiver.poll (Sender.send (Receiver.poll q).2 v4) = ([v4], []) :=
  ⟨rfl, rfl, rfl, rfl⟩

/-! ## Claim C8 — keyboard and character input is a global no-op -/

/-- C8: routing a `KeyDown`, `KeyUp` or `Char` event from the root returns
the tree completely unchanged (every field of every node) and invokes no
handler anywhere. -/
theorem key_char_input_noop (n : Node) (st : InputState) (k : Key) (c : Char) :
    n.input (.keyDown k) st = (n, []) ∧
    n.input (.keyUp k) st = (n, []) ∧
    n.input (.char c) st = (n, []) := by
  cases n
  refine ⟨?_, ?_, ?_⟩ <;> simp [Node.input, Node.inputInner]

/-! ## Claim C2 — identity change discards the node wholesale -/

/-- C2: `Node::tag` with a tag different from the stored one replaces the
node by a freshly constructed node carrying the new tag — typed state back
to the unit default, empty shape, no children, hover and dragging false,
all handlers cleared — and returns false; with the stored tag it returns
true and leaves the node untouched. -/
theorem retag_identity_change (n : Node) (t : Nat) :
    (t ≠ n.tag →
      n.retag t = (false, Node.with_tag t) ∧
      (Node.with_tag t).tag = t ∧
      (Node.with_tag t).state = .unitSt ∧
      (Node.with_tag t).shape = .empty ∧
      (Node.with_tag t).children = [] ∧
      (Node.with_tag t).hover = false ∧
      (Node.with_tag t).dragging = false ∧
      (Node.with_tag t).handlers = Handlers.default) ∧
    (t = n.tag → n.retag t = (true, n)) := by
  constructor
  · intro h
    refine ⟨?_, rfl, rfl, rfl, rfl, rfl, rfl, rfl⟩
    simp [Node.retag, h]
  · intro h
    simp [Node.retag, h]

/-- A sample retained node with non-trivial contents in every field. -/
def demoNode : Node :=
  Node.mk 7 ⟨1, 2⟩ ⟨3, 4⟩ (.rect ⟨0, 0⟩ ⟨3, 4⟩ (Color.rgba 1 0 0 1))
    [Node.new] true true
    { Handlers.default with on_mouse_move := some 11 } (.natSt 42)

theorem retag_identity_change_witness :
    ((3 : Nat) ≠ demoNode.tag ∧
      demoNode.retag 3 = (false, Node.with_tag 3) ∧
      (Node.with_tag 3).state = .unitSt) ∧
    ((7 : Nat) = demoNode.tag ∧ demoNode.retag 7 = (true, demoNode)) :=
  ⟨⟨by decide,
    ((retag_identity_change demoNode 3).1 (by decide)).1,
    ((retag_identity_change demoNode 3).1 (by decide)).2.2.1⟩,
   ⟨rfl, (retag_identity_change demoNode 7).2 rfl⟩⟩

/-! ## Claim C5 — wrong-type state access (corrected) -/

/-- A node whose typed state slot holds a `ScrollState`-typed value. -/
def c5Node : Node :=
  Node.mk 9 ⟨0, 0⟩ ⟨0, 0⟩ .empty [] false false Handlers.default (.scrollSt 3 [1])

/-- C5 counterexample: accessing `c5Node`'s state slot as the unit type
(different from the stored `ScrollState` type) does NOT fail fast — it
succeeds, and it silently replaces the stored value with the freshly
constructed default and returns that default. -/
theorem state_wrong_type_counterexample :
    c5Node.state = .scrollSt 3 [1] ∧
    (StateVal.scrollSt 3 [1]).tag ≠ StateTag.unitTag ∧
    c5Node.stateGet .unitTag .unitSt = some (.unitSt, c5Node.withState .unitSt) ∧
    (c5Node.withState .unitSt).state = .unitSt :=
  ⟨rfl, by decide, rfl, rfl⟩

/-- C5 (amended): accessing the typed state slot as a type different from
the stored one silently overwrites the slot with the freshly constructed
default for the requested type and returns it (this doubles as the
initialization path for a fresh node's unit-typed slot); same-type access
returns the stored value and leaves the node unchanged; the access never
fails (never panics) when the supplied default has the requested type. -/
theorem stateGet_silent_replace (n : Node) (t : StateTag) (d : StateVal) (hd : d.tag = t) :
    (n.state.tag = t → n.stateGet t d = some (n.state, n)) ∧
    (n.state.tag ≠ t → n.stateGet t d = some (d, n.withState d)) := by
  constructor
  · intro h
    simp [Node.stateGet, h, Node.withState_state_self]
  · intro h
    simp [Node.stateGet, h, hd]

theorem stateGet_silent_replace_witness :
    (StateVal.natSt 5).tag = StateTag.natTag ∧
    ((StateVal.scrollSt 3 [1]).tag = StateTag.natTag →
      c5Node.stateGet .natTag (.natSt 5) = some (c5Node.state, c5Node)) ∧
    ((StateVal.scrollSt 3 [1]).tag ≠ StateTag.natTag →
      c5Node.stateGet .natTag (.natSt 5) = some (.natSt 5, c5Node.withState (.natSt 5))) :=
  ⟨rfl,
   (stateGet_silent_replace c5Node .natTag (.natSt 5) rfl).1,
   (stateGet_silent_replace c5Node .natTag (.natSt 5) rfl).2⟩

/-! ### Cursor arithmetic for a reconciliation pass -/

theorem applyStep_index (env : Env) (bnd : Bounds) (c : Cursor) (e : MElem) :
    (applyStep env bnd c e).index = c.index + 1 := rfl

theorem applyStep_length (env : Env) (bnd : Bounds) (c : Cursor) (e : MElem)
    (h : c.index ≤ c.node.children.length) :
    (applyStep env bnd c e).node.children.length
      = max c.node.children.length (c.index + 1) := by
  unfold applyStep Cursor.add Cursor.setSlot
  by_cases hi : c.index = c.node.children.length
  · simp [hi]
  · simp [hi]
    omega

/-- The `assert!(index <= children.len())` in `Cursor::add` holds at every
cursor state a reconciliation pass produces. -/
theorem Cursor.add_index_le (env : Env) (bnd : Bounds) (es : List MElem) (n : Node) :
    (applySlots env bnd es (n.edit_children)).index
      ≤ (applySlots env bnd es (n.edit_children)).node.children.length := by
  suffices h : ∀ (es : List MElem) (c : Cursor), c.index ≤ c.node.children.length →
      (applySlots env bnd es c).index ≤ (applySlots env bnd es c).node.children.length by
    exact h es (n.edit_children) (by simp [Node.edit_children])
  intro es
  induction es with
  | nil => intro c h; exact h
  | cons e es ih =>
    intro c h
    have h1 : (applyStep env bnd c e).index ≤ (applyStep env bnd c e).node.children.length := by
      rw [applyStep_index, applyStep_length env bnd c e h]
      omega
    exact ih (applyStep env bnd c e) h1

theorem applySlots_spec (env : Env) (bnd : Bounds) :
    ∀ (es : List MElem) (c : Cursor),
      c.index ≤ c.node.children.length →
      (applySlots env bnd es c).index = c.index + es.length ∧
      (applySlots env bnd es c).node.children.length
        = max c.node.children.length (c.index + es.length) := by
  intro es
  induction es with
  | nil =>
    intro c h
    refine ⟨rfl, ?_⟩
    show c.node.children.length = max c.node.children.length (c.index + 0)
    omega
  | cons e es ih =>
    intro c h
    have h1 : (applyStep env bnd c e).index ≤ (applyStep env bnd c e).node.children.length := by
      rw [applyStep_index, applyStep_length env bnd c e h]
      omega
    have heq : applySlots env bnd (e :: es) c = applySlots env bnd es (applyStep env bnd c e) :=
      rfl
    rcases ih (applyStep env bnd c e) h1 with ⟨hidx, hlen⟩
    rw [heq]
    refine ⟨?_, ?_⟩
    · rw [hidx, applyStep_index]
      simp
      omega
    · rw [hlen, applyStep_index, applyStep_length env bnd c e h]
      simp
      omega

theorem MList.toList_length : ∀ es : MList, es.toList.length = es.len
  | .mnil => rfl
  | .mcons e es => by simp [MList.toList, MList.len, MList.toList_length es]

theorem EList.slots_length : ∀ l : EList, l.slots.length = l.slotCount
  | .unitL => rfl
  | .single _ => rfl
  | .chainL a b => by
    simp [EList.slots, EList.slotCount, EList.slots_length a, EList.slots_length b]
  | .tupL es => by simp [EList.slots, EList.slotCount, MList.toList_length es]

mutual

/-- Every `ElemList` applies exactly its slot sequence, in order, through
the common single-slot step. -/
def EList.apply_all_eq_slots : ∀ (l : EList) (env : Env) (bnd : Bounds) (c : Cursor),
    EList.apply_all env l bnd c = applySlots env bnd l.slots c
  | .unitL, env, bnd, c => by
    simp [EList.apply_all, EList.slots, applySlots]
  | .single e, env, bnd, c => by
    simp [EList.apply_all, EList.slots, applySlots, applyStep]
  | .chainL a b, env, bnd, c => by
    simp only [EList.apply_all, EList.slots]
    rw [EList.apply_all_eq_slots a env bnd c, EList.apply_all_eq_slots b env bnd _]
    simp [applySlots, List.foldl_append]
  | .tupL es, env, bnd, c => by
    simp only [EList.apply_all, EList.slots]
    exact MList.apply_tup_eq_slots es env bnd c

def MList.apply_tup_eq_slots : ∀ (es : MList) (env : Env) (bnd : Bounds) (c : Cursor),
    MList.apply_tup env es bnd c = applySlots env bnd es.toList c
  | .mnil, env, bnd, c => by
    simp [MList.apply_tup, MList.toList, applySlots]
  | .mcons e es, env, bnd, c => by
    simp only [MList.apply_tup, MList.toList]
    rw [MList.apply_tup_eq_slots es env bnd _]
    simp [applySlots, applyStep]

end

/-! ## Claim C1 — a reconciliation pass prunes to exactly the slot count -/

/-- C1: after a full reconciliation pass over a node's children (an
`ElemList` applied through a cursor from `edit_children`, cursor then
dropped), the children vector's length equals exactly the number of
`cursor.add()` calls the list performed — in particular applying `M`
declarative children to a node retaining `N > M` children leaves exactly
`M`, the trailing ones truncated away by the cursor's `Drop`. -/
theorem reconciliation_prunes_to_slot_count (env : Env) (bnd : Bounds) (l : EList) (n : Node) :
    (applyList env l bnd n).children.length = l.slotCount := by
  unfold applyList Cursor.drop
  rw [EList.apply_all_eq_slots]
  have h0 : (n.edit_children).index ≤ (n.edit_children).node.children.length := by
    simp [Node.edit_children]
  rcases applySlots_spec env bnd l.slots (n.edit_children) h0 with ⟨hidx, hlen⟩
  rw [Node.withChildren_children, List.length_take, hidx, hlen]
  simp [Node.edit_children, EList.slots_length]

/-! ## Claim C9 — ElemList application is a monoid homomorphism -/

/-- C9: the empty list applies zero slots and leaves the cursor unchanged;
a chain applies exactly the concatenation of the two lists' slot
sequences, in order (equivalently, the second list's application composed
after the first's); a tuple applies its members in positional order to
successive slots; and in general every `ElemList` application factors
through its ordered slot sequence. -/
theorem elemList_monoid_hom (env : Env) (bnd : Bounds) :
    (∀ c : Cursor, EList.apply_all env .unitL bnd c = c) ∧
    (∀ (a b : EList) (c : Cursor),
      EList.apply_all env (.chainL a b) bnd c = applySlots env bnd (a.slots ++ b.slots) c ∧
      EList.apply_all env (.chainL a b) bnd c
        = EList.apply_all env b bnd (EList.apply_all env a bnd c)) ∧
    (∀ (es : MList) (c : Cursor),
      EList.apply_all env (.tupL es) bnd c = applySlots env bnd es.toList c) ∧
    (∀ (l : EList) (c : Cursor), EList.apply_all env l bnd c = applySlots env bnd l.slots c) := by
  refine ⟨?_, ?_, ?_, ?_⟩
  · intro c
    simp [EList.apply_all]
  · intro a b c
    constructor
    · rw [EList.apply_all_eq_slots]
      simp [EList.slots]
    · simp [EList.apply_all]
  · intro es c
    rw [EList.apply_all_eq_slots]
    simp [EList.slots]
  · intro l c
    exact EList.apply_all_eq_slots l env bnd c

/-! ### Pointwise description of the slots a pass writes -/

/-- The children list after one slot application, explicitly. -/
theorem applyStep_children (env : Env) (bnd : Bounds) (c : Cursor) (e : MElem) :
    (applyStep env bnd c e).node.children
      = (if c.index = c.node.children.length then c.node.children ++ [Node.new]
          else c.node.children).set c.index
          (MElem.apply env e bnd
            ((if c.index = c.node.children.length then c.node.children ++ [Node.new]
              else c.node.children).getD c.index Node.new)) := by
  unfold applyStep Cursor.add Cursor.setSlot Cursor.slot
  simp [Node.withChildren_children]

/-- A reconciliation pass never touches child positions below the cursor's
starting index. -/
theorem applySlots_getElem_lt (env : Env) (bnd : Bounds) :
    ∀ (es : List MElem) (c : Cursor) (j : Nat), j < c.index →
      (applySlots env bnd es c).node.children[j]? = c.node.children[j]? := by
  intro es
  induction es with
  | nil => intro c j _; rfl
  | cons e es ih =>
    intro c j hj
    have heq : applySlots env bnd (e :: es) c = applySlots env bnd es (applyStep env bnd c e) :=
      rfl
    rw [heq, ih (applyStep env bnd c e) j (by rw [applyStep_index]; omega),
      applyStep_children]
    by_cases hi : c.index = c.node.children.length
    · rw [if_pos hi]
      rw [List.getElem?_set_ne (by omega)]
      exact List.getElem?_append_left (by omega)
    · rw [if_neg hi]
      exact List.getElem?_set_ne (by omega)

/-- Each applied slot `j` of a pass holds the result of applying the
`j`-th element of the slot sequence to some node. -/
theorem applySlots_getElem_applied (env : Env) (bnd : Bounds) :
    ∀ (es : List MElem) (c : Cursor) (j : Nat),
      c.index ≤ c.node.children.length →
      c.index ≤ j → j < c.index + es.length →
      ∃ m, (applySlots env bnd es c).node.children[j]?
        = some (MElem.apply env (es.getD (j - c.index) .emptyE) bnd m) := by
  intro es
  induction es with
  | nil => intro c j _ h1 h2; simp at h2; omega
  | cons e es ih =>
    intro c j hlen h1 h2
    have heq : applySlots env bnd (e :: es) c = applySlots env bnd es (applyStep env bnd c e) :=
      rfl
    rw [heq]
    by_cases hj : j = c.index
    · subst hj
      rw [applySlots_getElem_lt env bnd es _ _ (by rw [applyStep_index]; omega),
        applyStep_children]
      refine ⟨(if c.index = c.node.children.length then c.node.children ++ [Node.new]
              else c.node.children).getD c.index Node.new, ?_⟩
      have hlt : c.index < (if c.index = c.node.children.length then
          c.node.children ++ [Node.new] else c.node.children).length := by
        by_cases hi : c.index = c.node.children.length
        · rw [if_pos hi]; simp; omega
        · rw [if_neg hi]; omega
      rw [List.getElem?_set_self (by exact hlt)]
      simp only [Nat.sub_self]
      rfl
    · have h1' : c.index + 1 ≤ j := by omega
      have hlen' : (applyStep env bnd c e).index
          ≤ (applyStep env bnd c e).node.children.length := by
        rw [applyStep_index, applyStep_length env bnd c e hlen]; omega
      have h2' : j < (applyStep env bnd c e).index + es.length := by
        rw [applyStep_index]; simp at h2; omega
      rcases ih (applyStep env bnd c e) j hlen' (by rw [applyStep_index]; omega) h2'
        with ⟨m, hm⟩
      refine ⟨m, ?_⟩
      rw [hm, applyStep_index]
      have hidx : j - c.index = (j - (c.index + 1)) + 1 := by omega
      rw [hidx]
      rfl

/-- Applying a `Text` element forces the node's size to the measured
width/height of its content, whatever the previous node contents. -/
theorem text_apply_size (env : Env) (f : Nat) (sz : ℚ) (txt : String) (bnd : Bounds) (n : Node) :
    (MElem.apply env (.text f sz txt) bnd n).size
      = ⟨(env.measure f sz txt).1, (env.measure f sz txt).2⟩ := by
  simp [MElem.apply]

/-- After a two-element tuple pass, a node's children are exactly the two
applied slots in order. -/
theorem two_slot_children (env : Env) (bnds : Bounds) (e1 e2 : MElem) (n1 : Node) :
    ∃ m0 m1,
      (EList.apply_all env (.tupL (.mcons e1 (.mcons e2 .mnil))) bnds
        (n1.edit_children)).drop.children
        = [MElem.apply env e1 bnds m0, MElem.apply env e2 bnds m1] := by
  rw [EList.apply_all_eq_slots]
  have hslots : (EList.tupL (.mcons e1 (.mcons e2 .mnil))).slots = [e1, e2] := rfl
  rw [hslots]
  have h0 : (n1.edit_children).index ≤ (n1.edit_children).node.children.length := by
    simp [Node.edit_children]
  have h0i : (n1.edit_children).index = 0 := rfl
  rcases applySlots_spec env bnds [e1, e2] (n1.edit_children) h0 with ⟨hidx, hlen⟩
  rcases applySlots_getElem_applied env bnds [e1, e2] (n1.edit_children) 0 h0
      (by omega) (by rw [h0i]; simp) with ⟨m0, hm0⟩
  rcases applySlots_getElem_applied env bnds [e1, e2] (n1.edit_children) 1 h0
      (by omega) (by rw [h0i]; simp) with ⟨m1, hm1⟩
  rw [h0i] at hm0 hm1
  simp only [Nat.sub_zero, List.getD_cons_zero, List.getD_cons_succ] at hm0 hm1
  refine ⟨m0, m1, ?_⟩
  have hdrop : (applySlots env bnds [e1, e2] (n1.edit_children)).drop.children
      = (applySlots env bnds [e1, e2] (n1.edit_children)).node.children.take 2 := by
    unfold Cursor.drop
    rw [Node.withChildren_children, hidx, h0i]
    norm_num
  rw [hdrop]
  have hlen2 : ((applySlots env bnds [e1, e2] (n1.edit_children)).node.children.take 2).length
      = 2 := by
    rw [List.length_take, hlen, h0i]
    simp
  rcases List.length_eq_two.mp hlen2 with ⟨x, y, hxy⟩
  have hx : (applySlots env bnds [e1, e2] (n1.edit_children)).node.children[0]? = some x := by
    have h := List.getElem?_take
      (l := (applySlots env bnds [e1, e2] (n1.edit_children)).node.children)
      (n := 2) (m := 0)
    rw [hxy] at h
    simpa using h.symm
  have hy : (applySlots env bnds [e1, e2] (n1.edit_children)).node.children[1]? = some y := by
    have h := List.getElem?_take
      (l := (applySlots env bnds [e1, e2] (n1.edit_children)).node.children)
      (n := 2) (m := 1)
    rw [hxy] at h
    simpa using h.symm
  rw [hm0] at hx
  rw [hm1] at hy
  rw [hxy, Option.some.inj hx, Option.some.inj hy]

/-! ## Claim C6 — Row layout: concrete two-child scenario and empty row -/

/-- C6: a `Row` with spacing 5 whose two `Text` children measure to
`(40, 10)` and `(60, 14)` reports size `(105, 14)` and places the children
at offsets `(0, 0)` and `(45, 0)`; and for every spacing `s ≥ 0` a `Row`
with zero children reports size `(0, 0)` — the `(x - spacing)` term is
clamped at zero. -/
theorem row_layout_spacing5 (env : Env) (bnd : Bounds) (n : Node)
    (f1 f2 : Nat) (s1 s2 : ℚ) (t1 t2 : String)
    (h1 : env.measure f1 s1 t1 = (40, 10))
    (h2 : env.measure f2 s2 t2 = (60, 14)) :
    (MElem.apply env
      (.row 5 (.tupL (.mcons (.text f1 s1 t1) (.mcons (.text f2 s2 t2) .mnil)))) bnd n).size
      = ⟨105, 14⟩ ∧
    ((MElem.apply env
      (.row 5 (.tupL (.mcons (.text f1 s1 t1) (.mcons (.text f2 s2 t2) .mnil)))) bnd n).children.map
        Node.offset) = [⟨0, 0⟩, ⟨45, 0⟩] ∧
    (∀ (sp : ℚ), 0 ≤ sp → ∀ (m : Node),
      (MElem.apply env (.row sp .unitL) bnd m).size = ⟨0, 0⟩) := by
  rcases two_slot_children env (Bounds.new .inf bnd.height)
      (.text f1 s1 t1) (.text f2 s2 t2) ((n.retag rowTag).2) with ⟨m0, m1, hch⟩
  have hsz0 : (MElem.apply env (.text f1 s1 t1) (Bounds.new .inf bnd.height) m0).size
      = ⟨40, 10⟩ := by rw [text_apply_size, h1]
  have hsz1 : (MElem.apply env (.text f2 s2 t2) (Bounds.new .inf bnd.height) m1).size
      = ⟨60, 14⟩ := by rw [text_apply_size, h2]
  refine ⟨?_, ?_, ?_⟩
  · simp only [MElem.apply, hch]
    simp [rowPlace, hsz0, hsz1]
    rw [h1, h2]
    norm_num [max_def]
  · simp only [MElem.apply, hch]
    simp [rowPlace, hsz0, hsz1]
    rw [h1]
    norm_num
  · intro sp hsp m
    simp only [MElem.apply]
    have hdrop : (EList.apply_all env .unitL (Bounds.new .inf bnd.height)
        ((m.retag rowTag).2.edit_children)).drop.children = [] := by
      have : EList.apply_all env .unitL (Bounds.new .inf bnd.height)
          ((m.retag rowTag).2.edit_children) = (m.retag rowTag).2.edit_children := by
        simp [EList.apply_all]
      rw [this]
      unfold Cursor.drop
      rw [Node.withChildren_children]
      rfl
    rw [hdrop]
    simp [rowPlace]
    exact hsp

/-- A concrete text-measurement environment for the C6 scenario: font 1
measures to `(40, 10)`, anything else to `(60, 14)`. -/
def c6Env : Env :=
  ⟨fun f _ _ => if f = 1 then ((40 : ℚ), (10 : ℚ)) else ((60 : ℚ), (14 : ℚ)),
   fun _ _ _ => []⟩

theorem row_layout_spacing5_witness :
    c6Env.measure 1 12 "ab" = (40, 10) ∧
    c6Env.measure 2 12 "cd" = (60, 14) ∧
    (MElem.apply c6Env
      (.row 5 (.tupL (.mcons (.text 1 12 "ab") (.mcons (.text 2 12 "cd") .mnil))))
      (Bounds.new (.fin 200) (.fin 100)) Node.new).size = ⟨105, 14⟩ ∧
    ((MElem.apply c6Env
      (.row 5 (.tupL (.mcons (.text 1 12 "ab") (.mcons (.text 2 12 "cd") .mnil))))
      (Bounds.new (.fin 200) (.fin 100)) Node.new).children.map Node.offset)
      = [⟨0, 0⟩, ⟨45, 0⟩] :=
  ⟨rfl, rfl,
   (row_layout_spacing5 c6Env (Bounds.new (.fin 200) (.fin 100)) Node.new
      1 2 12 12 "ab" "cd" rfl rfl).1,
   (row_layout_spacing5 c6Env (Bounds.new (.fin 200) (.fin 100)) Node.new
      1 2 12 12 "ab" "cd" rfl rfl).2.1⟩

/-! ## Claim C10 — Button click on left-button MouseUp while hovered or
dragging -/

/-- Routing a non-left `MouseUp` can never fire any `on_click` anywhere in
the tree: every click effect originates from `Button`'s installed closure,
which checks for the left button. -/
theorem click_only_left (st : InputState) (b : MouseButton) (hb : b ≠ .left) :
    ∀ n : Node, ∀ (off : Vec2) (cid : Nat),
      Eff.click cid ∉ (n.inputInner (.mouseUp b) st off).2 :=
  Node.recAux (fun t o s sh cs hv dr ha stv ihc => by
    intro off cid hmem
    rw [inputInner_snd] at hmem
    by_cases hg : gate (.mouseUp b) st off (Node.mk t o s sh cs hv dr ha stv) = true
    · rw [if_pos hg] at hmem
      rcases List.mem_append.1 hmem with hself | hchild
      · simp only [selfEff, Node.handlers_mk] at hself
        cases hup : ha.on_mouse_up with
        | none => rw [hup] at hself; cases hself
        | some h =>
          rw [hup] at hself
          cases h with
          | hOpaque i => simp [UpHandler.invoke] at hself
          | buttonClick cid2 =>
            simp [UpHandler.invoke, hb] at hself
      · rcases List.mem_flatten.1 hchild with ⟨l, hl, hxl⟩
        rcases List.mem_map.1 hl with ⟨c, hc, rfl⟩
        exact ihc c (by simpa using hc) _ cid hxl
    · rw [if_neg hg] at hmem
      cases hmem)

/-- C10: `Button::apply` installs the closure
`if button == Left { on_click() }` as the node's mouse-up handler; a
left-button `MouseUp` routed to a node carrying that handler while the
node is hovered OR dragging fires `on_click` — no preceding `MouseDown`
is required — and a middle- or right-button `MouseUp` never fires any
`on_click` anywhere in the tree. -/
theorem button_click_semantics (env : Env) (bnd : Bounds) (ch : MElem) (cid : Nat)
    (st : InputState) (off : Vec2) :
    (∀ n : Node, (MElem.apply env (.button ch cid) bnd n).handlers.on_mouse_up
        = some (.buttonClick cid)) ∧
    (∀ m : Node, m.handlers.on_mouse_up = some (.buttonClick cid) →
      (m.hover || m.dragging) = true →
      Eff.click cid ∈ (m.inputInner (.mouseUp .left) st off).2) ∧
    (∀ (m : Node) (b : MouseButton), b ≠ .left →
      Eff.click cid ∉ (m.inputInner (.mouseUp b) st off).2) := by
  refine ⟨?_, ?_, ?_⟩
  · intro n
    simp [MElem.apply, Cursor.drop, Cursor.setSlot, Cursor.add, Cursor.slot,
      Node.edit_children]
  · intro m hup hg
    rw [inputInner_snd]
    have hgate : gate (.mouseUp .left) st off m = true := by
      simp [gate]
      rcases Bool.or_eq_true_iff.1 hg with h | h
      · exact Or.inl h
      · exact Or.inr h
    rw [if_pos hgate]
    refine List.mem_append_left _ ?_
    simp [selfEff, hup, UpHandler.invoke]
  · intro m b hb
    exact click_only_left st b hb m off cid

/-- A hovered node carrying a `Button` mouse-up handler, for the C10
witness. -/
def c10Node : Node :=
  Node.mk 5 ⟨0, 0⟩ ⟨10, 10⟩ .empty [] true false
    { Handlers.default with on_mouse_up := some (.buttonClick 3) } .unitSt

/-- A trivial measurement environment. -/
def c10Env : Env := ⟨fun _ _ _ => ((0 : ℚ), (0 : ℚ)), fun _ _ _ => []⟩

/-- Pointer state at the origin. -/
def st0 : InputState := ⟨0, 0, Modifiers.default⟩

theorem button_click_semantics_witness :
    (MElem.apply c10Env (.button .emptyE 3) (Bounds.new (.fin 10) (.fin 10))
        Node.new).handlers.on_mouse_up = some (.buttonClick 3) ∧
    (c10Node.handlers.on_mouse_up = some (.buttonClick 3) ∧
      (c10Node.hover || c10Node.dragging) = true ∧
      Eff.click 3 ∈ (c10Node.inputInner (.mouseUp .left) st0 ⟨0, 0⟩).2) ∧
    (MouseButton.middle ≠ .left ∧
      Eff.click 3 ∉ (c10Node.inputInner (.mouseUp .middle) st0 ⟨0, 0⟩).2) :=
  ⟨(button_click_semantics c10Env (Bounds.new (.fin 10) (.fin 10)) .emptyE 3 st0 ⟨0, 0⟩).1
      Node.new,
   ⟨rfl, rfl,
    (button_click_semantics c10Env (Bounds.new (.fin 10) (.fin 10)) .emptyE 3 st0 ⟨0, 0⟩).2.1
      c10Node rfl rfl⟩,
   ⟨by decide,
    (button_click_semantics c10Env (Bounds.new (.fin 10) (.fin 10)) .emptyE 3 st0 ⟨0, 0⟩).2.2
      c10Node .middle (by decide)⟩⟩

/-! ## Claim C3 — pointer capture across MouseDown / MouseMove / MouseUp -/

@[simp] theorem Vec2.zero_add (a : Vec2) : (⟨0, 0⟩ : Vec2) + a = a := by
  cases a with
  | mk x y =>
    show Vec2.mk (0 + x) (0 + y) = Vec2.mk x y
    rw [Rat.zero_add, Rat.zero_add]

theorem inputInner_fst_offset (e : Input) (st : InputState) (off : Vec2) (n : Node) :
    ((n.inputInner e st off).1).offset = n.offset := by
  rw [inputInner_fst]; split <;> simp

theorem inputInner_fst_size (e : Input) (st : InputState) (off : Vec2) (n : Node) :
    ((n.inputInner e st off).1).size = n.size := by
  rw [inputInner_fst]; split <;> simp

theorem inputInner_fst_handlers (e : Input) (st : InputState) (off : Vec2) (n : Node) :
    ((n.inputInner e st off).1).handlers = n.handlers := by
  rw [inputInner_fst]; split <;> simp

/-- Routing an event does not change the accumulated offset above any
addressed node. -/
theorem offAbove_inputInner (e : Input) (st : InputState) :
    ∀ (p : List Nat) (n : Node) (off : Vec2) (A : Node), n.nodeAt p = some A →
      ((n.inputInner e st off).1).offAbove p = n.offAbove p := by
  intro p
  induction p with
  | nil => intro n off A _; rfl
  | cons i p ih =>
    intro n off A hA
    simp only [Node.nodeAt] at hA
    cases hc : n.children[i]? with
    | none => rw [hc] at hA; exact absurd hA (by simp)
    | some c =>
      rw [hc] at hA
      rw [inputInner_fst]
      by_cases hg : gate e st off n = true
      · rw [if_pos hg]
        have hcm : ((flagsUpd e st off n).withChildren
            (n.children.map (fun c => (c.inputInner e st (off + n.offset)).1))).children[i]?
            = some ((c.inputInner e st (off + n.offset)).1) := by
          simp [Node.withChildren_children, List.getElem?_map, hc]
        simp only [Node.offAbove, hcm, hc]
        rw [ih c (off + n.offset) A hA]
        simp
      · rw [if_neg hg]
        have hcm : (flagsUpd e st off n).children[i]? = some c := by
          rw [flagsUpd_children, hc]
        simp only [Node.offAbove, hcm, hc]
        simp

/-- Every node strictly above the addressed node is dragging. -/
def dragPath : Node → List Nat → Bool
  | _, [] => true
  | n, i :: p =>
    n.dragging &&
      match n.children[i]? with
      | some c => dragPath c p
      | none => true

/-- A `MouseDown` that descends to the addressed node (every gate above
hovered) leaves every node above it dragging. -/
theorem dragPath_after_mouseDown (b : MouseButton) (st : InputState) :
    ∀ (p : List Nat) (n : Node) (off : Vec2) (A : Node), n.nodeAt p = some A →
      gatesAll (.mouseDown b) st n off p = true →
      dragPath ((n.inputInner (.mouseDown b) st off).1) p = true := by
  intro p
  induction p with
  | nil => intro n off A _ _; rfl
  | cons i p ih =>
    intro n off A hA hgs
    simp only [Node.nodeAt] at hA
    cases hc : n.children[i]? with
    | none => rw [hc] at hA; exact absurd hA (by simp)
    | some c =>
      rw [hc] at hA
      simp only [gatesAll, hc, Bool.and_eq_true] at hgs
      rw [inputInner_fst, if_pos hgs.1]
      have hcm : ((flagsUpd (.mouseDown b) st off n).withChildren
          (n.children.map (fun c => (c.inputInner (.mouseDown b) st (off + n.offset)).1))).children[i]?
          = some ((c.inputInner (.mouseDown b) st (off + n.offset)).1) := by
        simp [Node.withChildren_children, List.getElem?_map, hc]
      have hdrag : ((flagsUpd (.mouseDown b) st off n).withChildren
          (n.children.map (fun c => (c.inputInner (.mouseDown b) st (off + n.offset)).1))).dragging
          = true := by
        rw [Node.withChildren_dragging, flagsUpd_dragging]
        have hh := hgs.1
        simp only [gate] at hh
        simp [hh]
      simp only [dragPath, hcm, hdrag, Bool.true_and]
      exact ih c (off + n.offset) A hA hgs.2

/-- Any event whose gate passes on dragging nodes descends along a
dragging path. -/
theorem gatesAll_of_dragPath (e : Input) (st : InputState)
    (hgate : ∀ (off : Vec2) (m : Node), m.dragging = true → gate e st off m = true) :
    ∀ (p : List Nat) (n : Node) (off : Vec2), dragPath n p = true →
      gatesAll e st n off p = true := by
  intro p
  induction p with
  | nil => intro n off _; rfl
  | cons i p ih =>
    intro n off hd
    rw [dragPath, Bool.and_eq_true] at hd
    cases hc : n.children[i]? with
    | none => simp only [gatesAll, hc, hgate off n hd.1, Bool.true_and]
    | some c =>
      rw [hc] at hd
      simp only [gatesAll, hc, hgate off n hd.1, Bool.true_and]
      exact ih c (off + n.offset) hd.2

/-- `MouseMove` preserves a dragging path (dragging survives moves, and a
dragging node's gate passes so the path is dispatched into). -/
theorem dragPath_after_mouseMove (st : InputState) :
    ∀ (p : List Nat) (n : Node) (off : Vec2), dragPath n p = true →
      dragPath ((n.inputInner .mouseMove st off).1) p = true := by
  intro p
  induction p with
  | nil => intro n off _; rfl
  | cons i p ih =>
    intro n off hd
    rw [dragPath, Bool.and_eq_true] at hd
    have hg : gate .mouseMove st off n = true := by
      simp [gate, hd.1]
    rw [inputInner_fst, if_pos hg]
    have hdrag : ((flagsUpd .mouseMove st off n).withChildren
        (n.children.map (fun c => (c.inputInner .mouseMove st (off + n.offset)).1))).dragging
        = true := by
      rw [Node.withChildren_dragging, flagsUpd_dragging]
      exact hd.1
    cases hc : n.children[i]? with
    | none =>
      have hnone : ((flagsUpd .mouseMove st off n).withChildren
          (n.children.map (fun c => (c.inputInner .mouseMove st (off + n.offset)).1))).children[i]?
          = none := by
        simp [Node.withChildren_children, List.getElem?_map, hc]
      simp only [dragPath, hnone, hdrag, Bool.true_and]
    | some c =>
      rw [hc] at hd
      have hsome : ((flagsUpd .mouseMove st off n).withChildren
          (n.children.map (fun c => (c.inputInner .mouseMove st (off + n.offset)).1))).children[i]?
          = some ((c.inputInner .mouseMove st (off + n.offset)).1) := by
        simp [Node.withChildren_children, List.getElem?_map, hc]
      simp only [dragPath, hsome, hdrag, Bool.true_and]
      exact ih c (off + n.offset) hd.2

/-- C3: for a node `A` in a retained tree addressed by path `p`, with the
`MouseDown` dispatch descending to it (every node strictly above it
hovered, i.e. the `gatesAll` condition) and `A` itself hovered, followed
by a `MouseMove` whose pointer lies outside `A`'s absolute rectangle and
then a `MouseUp` anywhere: the `MouseDown` sets `A.dragging`; the
`MouseMove` still dispatches to `A`'s installed handler (capture via the
dragging flag) and afterwards `A.hover` is false while dragging persists;
the `MouseUp` reaches `A` and afterwards `A.dragging` is false. -/
theorem drag_capture_sequence
    (root : Node) (p : List Nat) (A : Node) (st1 st2 st3 : InputState)
    (b b2 : MouseButton) (hm : Nat)
    (hA : root.nodeAt p = some A)
    (hanc : gatesAll (.mouseDown b) st1 root ⟨0, 0⟩ p = true)
    (hhov : A.hover = true)
    (hout : hoverCalc st2 (root.offAbove p + A.offset) A.size = false)
    (hhandler : A.handlers.on_mouse_move = some hm) :
    ∃ A1 A2 A3,
      ((root.input (.mouseDown b) st1).1.nodeAt p = some A1 ∧ A1.dragging = true ∧
        A1.hover = true) ∧
      (Eff.moveRun hm ∈ ((root.input (.mouseDown b) st1).1.input .mouseMove st2).2) ∧
      (((root.input (.mouseDown b) st1).1.input .mouseMove st2).1.nodeAt p = some A2 ∧
        A2.hover = false ∧ A2.dragging = true) ∧
      ((((root.input (.mouseDown b) st1).1.input .mouseMove st2).1.input
          (.mouseUp b2) st3).1.nodeAt p = some A3 ∧ A3.dragging = false) := by
  simp only [Node.input]
  have h1 := nodeAt_inputInner (.mouseDown b) st1 p root ⟨0, 0⟩ A hA
  rw [if_pos hanc, Vec2.zero_add] at h1
  have hA1drag :
      ((A.inputInner (.mouseDown b) st1 (root.offAbove p)).1).dragging = true := by
    rw [inputInner_fst_dragging, flagsUpd_dragging]
    simp [hhov]
  have hA1hov :
      ((A.inputInner (.mouseDown b) st1 (root.offAbove p)).1).hover = true := by
    rw [inputInner_fst_hover, flagsUpd_hover]
    simpa using hhov
  have hA1off :
      ((A.inputInner (.mouseDown b) st1 (root.offAbove p)).1).offset = A.offset :=
    inputInner_fst_offset _ _ _ _
  have hA1size :
      ((A.inputInner (.mouseDown b) st1 (root.offAbove p)).1).size = A.size :=
    inputInner_fst_size _ _ _ _
  have hA1handlers :
      ((A.inputInner (.mouseDown b) st1 (root.offAbove p)).1).handlers = A.handlers :=
    inputInner_fst_handlers _ _ _ _
  have hdp1 : dragPath ((root.inputInner (.mouseDown b) st1 ⟨0, 0⟩).1) p = true :=
    dragPath_after_mouseDown b st1 p root ⟨0, 0⟩ A hA hanc
  have hoff1 : ((root.inputInner (.mouseDown b) st1 ⟨0, 0⟩).1).offAbove p = root.offAbove p :=
    offAbove_inputInner _ _ p root ⟨0, 0⟩ A hA
  have hgs2 : gatesAll .mouseMove st2 ((root.inputInner (.mouseDown b) st1 ⟨0, 0⟩).1)
      ⟨0, 0⟩ p = true :=
    gatesAll_of_dragPath _ _ (fun off m hd => by simp [gate, hd]) p _ ⟨0, 0⟩ hdp1
  have h2 := nodeAt_inputInner .mouseMove st2 p
    ((root.inputInner (.mouseDown b) st1 ⟨0, 0⟩).1) ⟨0, 0⟩ _ h1
  rw [if_pos hgs2, hoff1, Vec2.zero_add] at h2
  have heff : Eff.moveRun hm ∈
      (((root.inputInner (.mouseDown b) st1 ⟨0, 0⟩).1).inputInner .mouseMove st2 ⟨0, 0⟩).2 := by
    refine selfEff_mem_inputInner .mouseMove st2 p _ ⟨0, 0⟩ _ h1 hgs2 ?_ _ ?_
    · simp [gate, hA1drag]
    · simp [selfEff, hA1handlers, hhandler]
  have hA2hover :
      (((A.inputInner (.mouseDown b) st1 (root.offAbove p)).1).inputInner
        .mouseMove st2 (root.offAbove p)).1.hover = false := by
    rw [inputInner_fst_hover, flagsUpd_hover]
    simpa [hA1off, hA1size] using hout
  have hA2drag :
      (((A.inputInner (.mouseDown b) st1 (root.offAbove p)).1).inputInner
        .mouseMove st2 (root.offAbove p)).1.dragging = true := by
    rw [inputInner_fst_dragging, flagsUpd_dragging]
    simpa using hA1drag
  have hdp2 : dragPath ((((root.inputInner (.mouseDown b) st1 ⟨0, 0⟩).1).inputInner
      .mouseMove st2 ⟨0, 0⟩).1) p = true :=
    dragPath_after_mouseMove st2 p _ ⟨0, 0⟩ hdp1
  have hgs3 : gatesAll (.mouseUp b2) st3 ((((root.inputInner (.mouseDown b) st1 ⟨0, 0⟩).1).inputInner
      .mouseMove st2 ⟨0, 0⟩).1) ⟨0, 0⟩ p = true :=
    gatesAll_of_dragPath _ _ (fun off m hd => by simp [gate, hd]) p _ ⟨0, 0⟩ hdp2
  have hoff2 : ((((root.inputInner (.mouseDown b) st1 ⟨0, 0⟩).1).inputInner
      .mouseMove st2 ⟨0, 0⟩).1).offAbove p = root.offAbove p := by
    rw [offAbove_inputInner _ _ p _ ⟨0, 0⟩ _ h1, hoff1]
  have h3 := nodeAt_inputInner (.mouseUp b2) st3 p
    ((((root.inputInner (.mouseDown b) st1 ⟨0, 0⟩).1).inputInner .mouseMove st2 ⟨0, 0⟩).1)
    ⟨0, 0⟩ _ h2
  rw [if_pos hgs3, hoff2, Vec2.zero_add] at h3
  have hA3drag :
      ((((A.inputInner (.mouseDown b) st1 (root.offAbove p)).1).inputInner
          .mouseMove st2 (root.offAbove p)).1.inputInner
          (.mouseUp b2) st3 (root.offAbove p)).1.dragging = false := by
    rw [inputInner_fst_dragging, flagsUpd_dragging]
  exact ⟨_, _, _, ⟨h1, hA1drag, hA1hov⟩, heff, ⟨h2, hA2hover, hA2drag⟩, ⟨h3, hA3drag⟩⟩

/-- Concrete capture-scenario node: hovered, with an opaque mouse-move
handler `77`, occupying the rectangle `[0,10) × [0,10)`. -/
def c3A : Node :=
  Node.mk 21 ⟨0, 0⟩ ⟨10, 10⟩ .empty [] true false
    { Handlers.default with on_mouse_move := some 77 } .unitSt

/-- Concrete root containing `c3A`, hovered, covering `[0,100) × [0,100)`. -/
def c3Root : Node :=
  Node.mk 20 ⟨0, 0⟩ ⟨100, 100⟩ .empty [c3A] true false Handlers.default .unitSt

/-- Pointer at `(5, 5)` (inside `c3A`). -/
def c3St1 : InputState := ⟨5, 5, Modifiers.default⟩

/-- Pointer at `(50, 50)` (outside `c3A`'s rectangle). -/
def c3St2 : InputState := ⟨50, 50, Modifiers.default⟩

theorem drag_capture_sequence_witness :
    c3Root.nodeAt [0] = some c3A ∧
    gatesAll (.mouseDown .left) c3St1 c3Root ⟨0, 0⟩ [0] = true ∧
    c3A.hover = true ∧
    hoverCalc c3St2 (c3Root.offAbove [0] + c3A.offset) c3A.size = false ∧
    c3A.handlers.on_mouse_move = some 77 ∧
    (∃ A1 A2 A3,
      ((c3Root.input (.mouseDown .left) c3St1).1.nodeAt [0] = some A1 ∧ A1.dragging = true ∧
        A1.hover = true) ∧
      (Eff.moveRun 77 ∈ ((c3Root.input (.mouseDown .left) c3St1).1.input .mouseMove c3St2).2) ∧
      (((c3Root.input (.mouseDown .left) c3St1).1.input .mouseMove c3St2).1.nodeAt [0]
          = some A2 ∧ A2.hover = false ∧ A2.dragging = true) ∧
      ((((c3Root.input (.mouseDown .left) c3St1).1.input .mouseMove c3St2).1.input
          (.mouseUp .left) c3St1).1.nodeAt [0] = some A3 ∧ A3.dragging = false)) :=
  ⟨rfl, by decide, rfl,
   by simp [hoverCalc, c3Root, c3A, c3St2, Node.offAbove]; norm_num, rfl,
   drag_capture_sequence c3Root [0] c3A c3St1 c3St2 c3St1 .left .left 77
     rfl (by decide) rfl
     (by simp [hoverCalc, c3Root, c3A, c3St2, Node.offAbove]; norm_num) rfl⟩

/-! ## Claim C4 — discipline of the `dragging` flag under input -/

/-- C4: in any tree reachable from an all-idle tree by input routing, a
node's `dragging` flag can turn from false to true only through a
`MouseDown` processed while that node's `hover` is true; while true it
survives every event except `MouseUp`; and after any `MouseUp` routed from
the root the flag is false (a dragging node is always reached thanks to
the hereditary capture invariant). -/
theorem dragging_transition_discipline
    (t : Node) (hR : Reach t) (e : Input) (st : InputState) (p : List Nat) (A A1 : Node)
    (hA : t.nodeAt p = some A) (hA1 : ((t.input e st).1).nodeAt p = some A1) :
    (A.dragging = false → A1.dragging = true → ∃ b, e = .mouseDown b ∧ A.hover = true) ∧
    (A.dragging = true → (∀ b, e ≠ .mouseUp b) → A1.dragging = true) ∧
    (∀ b, e = .mouseUp b → A1.dragging = false) := by
  have htrans := nodeAt_inputInner e st p t ⟨0, 0⟩ A hA
  simp only [Node.input] at hA1
  have hAeq : A1 = (if gatesAll e st t ⟨0, 0⟩ p = true
      then (A.inputInner e st (⟨0, 0⟩ + t.offAbove p)).1 else A) :=
    Option.some.inj (hA1.symm.trans htrans)
  by_cases hg : gatesAll e st t ⟨0, 0⟩ p = true
  · rw [if_pos hg] at hAeq
    refine ⟨?_, ?_, ?_⟩
    · intro hdf hdt
      rw [hAeq, inputInner_fst_dragging, flagsUpd_dragging] at hdt
      cases e with
      | mouseMove => rw [hdf] at hdt; cases hdt
      | mouseDown b =>
        simp only [hdf, Bool.false_or] at hdt
        exact ⟨b, rfl, hdt⟩
      | mouseUp b => cases hdt
      | scroll dx dy => rw [hdf] at hdt; cases hdt
      | keyDown k => rw [hdf] at hdt; cases hdt
      | keyUp k => rw [hdf] at hdt; cases hdt
      | char ch => rw [hdf] at hdt; cases hdt
    · intro hdt hne
      rw [hAeq, inputInner_fst_dragging, flagsUpd_dragging]
      cases e with
      | mouseMove => exact hdt
      | mouseDown b => simp [hdt]
      | mouseUp b => exact absurd rfl (hne b)
      | scroll dx dy => exact hdt
      | keyDown k => exact hdt
      | keyUp k => exact hdt
      | char ch => exact hdt
    · intro b he
      subst he
      rw [hAeq, inputInner_fst_dragging, flagsUpd_dragging]
  · rw [if_neg hg] at hAeq
    refine ⟨?_, ?_, ?_⟩
    · intro hdf hdt
      rw [hAeq, hdf] at hdt
      cases hdt
    · intro hdt _
      rw [hAeq]
      exact hdt
    · intro b he
      subst he
      cases hd : A.dragging with
      | true =>
        exact absurd (Inv_gatesAll_mouseUp b st p t A ⟨0, 0⟩ (Reach_Inv hR) hA hd) hg
      | false =>
        rw [hAeq]
        exact hd

/-- An all-idle single node for the C4 witness. -/
def c4Node : Node :=
  Node.mk 30 ⟨0, 0⟩ ⟨10, 10⟩ .empty [] false false Handlers.default .unitSt

theorem c4Node_allIdle : AllIdle c4Node :=
  AllIdle.mk _ rfl rfl (fun c hc => absurd hc (List.not_mem_nil c))

theorem dragging_transition_discipline_witness :
    c4Node.nodeAt [] = some c4Node ∧
    ((c4Node.input (.mouseUp .left) st0).1).nodeAt [] = some c4Node ∧
    ((c4Node.dragging = false → c4Node.dragging = true →
        ∃ b, Input.mouseUp .left = Input.mouseDown b ∧ c4Node.hover = true) ∧
      (c4Node.dragging = true → (∀ b, Input.mouseUp .left ≠ Input.mouseUp b) →
        c4Node.dragging = true) ∧
      (∀ b, Input.mouseUp .left = Input.mouseUp b → c4Node.dragging = false)) :=
  ⟨rfl, rfl,
   dragging_transition_discipline c4Node (Reach.init _ c4Node_allIdle)
     (.mouseUp .left) st0 [] c4Node c4Node rfl rfl⟩

end Casein
